import Mathlib

/-!
Verification of the core of `pachyderm` (`src/index.js`): the directory →
nested-namespace-tree transformation.

The JavaScript tree is a plain object whose values are either nested objects
(Namespace Nodes) or strings of the form `require('./<path>')` (Leaves).  We
embed it as `JTree`.  JavaScript objects are modelled as association lists over
`String` keys: property reads return the first binding (keys are unique in a JS
object, and enumeration follows insertion order for the non-numeric keys this
program generates); assigning an existing key updates it in place, assigning a
new key appends it.  Reading a property of a string primitive yields
`undefined` (modelled as `none`; we ignore exotic properties such as `length`,
which never arise for the directory-segment keys this program reads), and
assigning a property of a string primitive is a silent no-op in sloppy mode.
Dereferencing `undefined` throws a `TypeError`; functions that can throw
return a `Bool` error flag alongside the mutated tree.
-/

/-- A JavaScript value appearing in the tree built by `filenameToJson`:
either a Leaf (a `require('./…')` string) or a Namespace Node (an object,
modelled as an insertion-ordered association list). -/
inductive JTree : Type where
  | leaf : String → JTree
  | node : List (String × JTree) → JTree

mutual

/-- Decidable equality on trees (nested inductive, so the instance is built
by hand). -/
def jtreeDecEq : (a b : JTree) → Decidable (a = b)
  | .leaf s, .leaf t =>
      match decEq s t with
      | isTrue h => isTrue (by rw [h])
      | isFalse h => isFalse (fun he => h (JTree.leaf.inj he))
  | .leaf _, .node _ => isFalse (fun h => JTree.noConfusion h)
  | .node _, .leaf _ => isFalse (fun h => JTree.noConfusion h)
  | .node es, .node fs =>
      match entriesDecEq es fs with
      | isTrue h => isTrue (by rw [h])
      | isFalse h => isFalse (fun he => h (JTree.node.inj he))

/-- Decidable equality on entry lists. -/
def entriesDecEq : (es fs : List (String × JTree)) → Decidable (es = fs)
  | [], [] => isTrue rfl
  | [], _ :: _ => isFalse (fun h => List.noConfusion h)
  | _ :: _, [] => isFalse (fun h => List.noConfusion h)
  | (k, v) :: rest, (k', v') :: rest' =>
      match decEq k k', jtreeDecEq v v', entriesDecEq rest rest' with
      | isTrue h1, isTrue h2, isTrue h3 => isTrue (by rw [h1, h2, h3])
      | isFalse h1, _, _ =>
          isFalse (fun he => by injection he with hp _; exact h1 (congrArg Prod.fst hp))
      | _, isFalse h2, _ =>
          isFalse (fun he => by injection he with hp _; exact h2 (congrArg Prod.snd hp))
      | _, _, isFalse h3 =>
          isFalse (fun he => by injection he with _ ht; exact h3 ht)

end

instance : DecidableEq JTree := jtreeDecEq

/-- Property read `obj[key]` on a JavaScript value: `none` models `undefined`.
On a string primitive every (relevant) property read gives `undefined`. -/
def jsRead : JTree → String → Option JTree
  | .leaf _, _ => none
  | .node es, k => (es.find? (fun kv => kv.1 == k)).map Prod.snd

/-- Property write on an association list: an existing key is updated in
place (keeping its position), a new key is appended — JS object semantics. -/
def setEntries : List (String × JTree) → String → JTree → List (String × JTree)
  | [], k, v => [(k, v)]
  | (k', v') :: rest, k, v =>
      if k' == k then (k, v) :: rest else (k', v') :: setEntries rest k v

/-- Property write `obj[key] = v` on a JavaScript value.  Writing a property
of a string primitive is a silent no-op (sloppy mode). -/
def jsSet : JTree → String → JTree → JTree
  | .leaf s, _, _ => .leaf s
  | .node es, k, v => .node (setEntries es k v)

/-- Character is an ASCII lowercase letter. -/
def isLowerC (c : Char) : Bool := 'a' ≤ c && c ≤ 'z'

/-- Character is an ASCII uppercase letter. -/
def isUpperC (c : Char) : Bool := 'A' ≤ c && c ≤ 'Z'

/-- Character is an ASCII digit. -/
def isDigitC (c : Char) : Bool := '0' ≤ c && c ≤ '9'

/-- Character is an ASCII letter or digit (a word character for the
identifier deriver). -/
def isAlnumC (c : Char) : Bool := isLowerC c || isUpperC c || isDigitC c

/-- ASCII lower-casing of one character. -/
def lowerC (c : Char) : Char := if isUpperC c then Char.ofNat (c.toNat + 32) else c

/-- ASCII upper-casing of one character. -/
def upperC (c : Char) : Char := if isLowerC c then Char.ofNat (c.toNat - 32) else c

/-- Word splitter of `_.camelCase` (Modelled from lodash, an external
dependency, for ASCII inputs): maximal runs of lowercase letters, uppercase
letters or digits form words; any other character is a separator; a word
boundary also falls between a lowercase letter and a following uppercase
letter, between letters and digits, and before the last letter of an
uppercase run that is followed by a lowercase letter.  The first argument is
the word currently being scanned, in reverse order. -/
def camelWordsGo : List Char → List Char → List (List Char)
  | cur, [] => if cur.isEmpty then [] else [cur.reverse]
  | cur, c :: rest =>
    if !isAlnumC c then
      if cur.isEmpty then camelWordsGo [] rest
      else cur.reverse :: camelWordsGo [] rest
    else
      match cur with
      | [] => camelWordsGo [c] rest
      | p :: ps =>
        if isUpperC p && isLowerC c then
          if ps.isEmpty then camelWordsGo (c :: cur) rest
          else ps.reverse :: camelWordsGo [c, p] rest
        else if (isLowerC p && isLowerC c) || (isUpperC p && isUpperC c)
                || (isDigitC p && isDigitC c) then
          camelWordsGo (c :: cur) rest
        else
          cur.reverse :: camelWordsGo [c] rest

/-- The words of a path segment, in order. -/
def camelWords (cs : List Char) : List (List Char) := camelWordsGo [] cs

/-- Upper-case the first character of an (already lower-cased) word. -/
def capitalizeW : List Char → List Char
  | [] => []
  | c :: cs => upperC c :: cs

/-- The identifier deriver `_.camelCase` (modelled from lodash for ASCII
inputs): every word is lower-cased, and every word after the first gets its
first character capitalized. -/
def camelCase (cs : List Char) : String :=
  match (camelWords cs).map (fun w => w.map lowerC) with
  | [] => ""
  | w :: ws => ⟨w ++ (ws.map capitalizeW).flatten⟩

/-- The Leaf text `'require(\'./' + fullLocation + '\')'` built by
`attachFilenameToLeafNode`. -/
def mkRequire (fullLocation : String) : String := "require('./" ++ fullLocation ++ "')"

/-- Embeds `handleConflicts` (src/index.js lines 31–37): if `treeObject[parentKey]`
is a string starting with `require(` (checked by `_.startsWith`), move it to
`parentKey + marker` and reset `treeObject[parentKey]` to an empty object. -/
def handleConflicts (t : JTree) (parentKey marker : String) : JTree :=
  match jsRead t parentKey with
  | some (.leaf s) =>
      if "require(".data.isPrefixOf s.data then
        jsSet (jsSet t (parentKey ++ marker) (.leaf s)) parentKey (.node [])
      else t
  | _ => t

/-- Embeds the root branch of `attachFilenameToLeafNode` (src/index.js lines
49–51): no `parentKey`, so the camel-cased filename is bound directly. -/
def attachFilenameToLeafNodeRoot (t : JTree) (filenamePart : List Char)
    (fullLocation : String) : JTree :=
  jsSet t (camelCase filenamePart) (.leaf (mkRequire fullLocation))

/-- Embeds the `parentKey` branch of `attachFilenameToLeafNode` (src/index.js
lines 52–56): run `handleConflicts` on the parent key, then assign
`treeObject[parentKey][camelCase(filenamePart)]`.  If `treeObject[parentKey]`
is `undefined` (only possible when `treeObject` is a string primitive) the
assignment dereferences `undefined` and throws a `TypeError` (`true` flag);
if it is a string primitive the assignment is a silent no-op. -/
def attachFilenameToLeafNode (t : JTree) (filenamePart : List Char)
    (fullLocation : String) (parentKey marker : String) : JTree × Bool :=
  let t1 := handleConflicts t parentKey marker
  match jsRead t1 parentKey with
  | some (.node ces) =>
      (jsSet t1 parentKey
        (jsSet (.node ces) (camelCase filenamePart) (.leaf (mkRequire fullLocation))), false)
  | some (.leaf _) => (t1, false)
  | none => (t1, true)

/-- Embeds the `_.reduce` walk of `filenameToJson` (src/index.js lines
81–93), accumulator first.  At each directory segment: create an empty
object if the key is `undefined`; on the final segment attach the leaf via
`attachFilenameToLeafNode`; otherwise descend into the value at the key.
Walking into a string primitive (a Leaf occupying an intermediate segment)
dereferences `undefined` within one step and throws a `TypeError`. -/
def insertLoop : JTree → List String → List Char → String → String → JTree × Bool
  | t, [], _, _, _ => (t, false)
  | .leaf s, p :: rest, fname, floc, marker =>
      if rest.isEmpty then attachFilenameToLeafNode (.leaf s) fname floc p marker
      else (.leaf s, true)
  | .node es, p :: rest, fname, floc, marker =>
      let t1 := if (jsRead (.node es) p).isSome then JTree.node es
                else jsSet (.node es) p (.node [])
      if rest.isEmpty then
        attachFilenameToLeafNode t1 fname floc p marker
      else
        match jsRead t1 p with
        | some child =>
            let r := insertLoop child rest fname floc marker
            (jsSet t1 p r.1, r.2)
        | none => (t1, true)

/-- Splitting on a (single-character) host path separator, as
`filename.split(path.sep)` does. -/
def splitOnChar (sep : Char) : List Char → List (List Char)
  | [] => [[]]
  | c :: cs =>
    match splitOnChar sep cs with
    | [] => [[]]
    | w :: ws => if c == sep then [] :: w :: ws else (c :: w) :: ws

/-- Embeds `filenameToJson` (src/index.js lines 69–94).  The path is split on
the host separator `sep`; the final segment loses its last three characters
(`.slice(0, -3)` removes `.js`); with no directory segments the leaf is
attached at the root (without any conflict handling), otherwise the
`_.reduce` walk runs.  `marker` is the value of
`module.exports.appendToConflicts` read by `handleConflicts`.  Note that the
Leaf text embeds `filename` verbatim (host separators included). -/
def filenameToJson (sep : Char) (marker : String) (t : JTree) (filename : String) :
    JTree × Bool :=
  let allParts := splitOnChar sep filename.data
  let lastPart := allParts.getLastD []
  let filenamePart := lastPart.take (lastPart.length - 3)
  let locationParts := allParts.dropLast
  if locationParts.isEmpty then
    (attachFilenameToLeafNodeRoot t filenamePart filename, false)
  else
    insertLoop t (locationParts.map fun p => (⟨p⟩ : String)) filenamePart filename marker

/-- Folds `filenameToJson` over a list of file paths, starting from the empty
root object `{}` created by `go`, recording whether any insertion threw. -/
def insertAll (sep : Char) (marker : String) (files : List String) : JTree × Bool :=
  files.foldl
    (fun acc f =>
      let r := filenameToJson sep marker acc.1 f
      (r.1, acc.2 || r.2))
    (.node [], false)

/-- Lexicographic (code-point) comparison of key strings, as JavaScript's
default `Array.prototype.sort` comparator orders them. -/
def listLe : List Char → List Char → Bool
  | [], _ => true
  | _ :: _, [] => false
  | a :: as, b :: bs =>
    if a.toNat < b.toNat then true
    else if b.toNat < a.toNat then false
    else listLe as bs

/-- The key order used by the deterministic serializer, on entries. -/
def jtreeKeyLE (a b : String × JTree) : Prop := listLe a.1.data b.1.data = true

instance : DecidableRel jtreeKeyLE := fun a b =>
  (inferInstance : Decidable (listLe a.1.data b.1.data = true))

mutual

/-- Embeds `sortJson` (src/index.js lines 96–108): non-objects pass through;
an object is rebuilt with its keys in ascending lexicographic order, each
value recursively sorted.  Sorting the entries by key with a stable sort is
equivalent to `_.keys(json).sort()` followed by re-insertion because keys in
a JS object are unique. -/
def sortJson : JTree → JTree
  | .leaf s => .leaf s
  | .node es => .node (List.insertionSort jtreeKeyLE (sortEntries es))

/-- Recursively sorts every value of an entry list. -/
def sortEntries : List (String × JTree) → List (String × JTree)
  | [] => []
  | kv :: rest => (kv.1, sortJson kv.2) :: sortEntries rest

end

/-- Adjacent keys of a list are in ascending lexicographic order. -/
def keysAscending : List String → Bool
  | [] => true
  | [_] => true
  | a :: b :: rest => listLe a.data b.data && keysAscending (b :: rest)

mutual

/-- Every Namespace Node reachable in the tree has its keys in ascending
lexicographic order. -/
def allKeysSorted : JTree → Bool
  | .leaf _ => true
  | .node es => keysAscending (es.map Prod.fst) && entriesAllSorted es

/-- Every tree in the entry list satisfies `allKeysSorted`. -/
def entriesAllSorted : List (String × JTree) → Bool
  | [] => true
  | kv :: rest => allKeysSorted kv.2 && entriesAllSorted rest

end

mutual

/-- The leaf strings of a tree, in order. -/
def leavesOf : JTree → List String
  | .leaf s => [s]
  | .node es => leavesOfEntries es

/-- The leaf strings of an entry list, in order. -/
def leavesOfEntries : List (String × JTree) → List String
  | [] => []
  | kv :: rest => leavesOf kv.2 ++ leavesOfEntries rest

end

/-- The single-branch tree produced by inserting one path into an empty
tree: one Namespace Node per directory segment (keyed by the raw segment
text), with the leaf at the bottom. -/
def chainTree : List String → String → String → JTree
  | [], leafKey, leafVal => .node [(leafKey, .leaf leafVal)]
  | p :: rest, leafKey, leafVal => .node [(p, chainTree rest leafKey leafVal)]

/-- Character class of `\w` in a JavaScript regular expression:
`[A-Za-z0-9_]`. -/
def isWordChar (c : Char) : Bool := isLowerC c || isUpperC c || isDigitC c || c == '_'

/-- Character class of the path group `[\w\.\/]` in the rewriter's regular
expression. -/
def isPathChar (c : Char) : Bool := isWordChar c || c == '.' || c == '/'

/-- Longest prefix of characters satisfying `p`, with the remainder
(greedy matching; the regex needs no backtracking here because each
repeated class is disjoint from the literal that follows it). -/
def takeRun (p : Char → Bool) : List Char → List Char × List Char
  | [] => ([], [])
  | c :: cs =>
      if p c then
        let r := takeRun p cs
        (c :: r.1, r.2)
      else ([], c :: cs)

/-- Match a literal character sequence, returning the remainder. -/
def stripLit : List Char → List Char → Option (List Char)
  | [], cs => some cs
  | _ :: _, [] => none
  | l :: ls, c :: cs => if c == l then stripLit ls cs else none

/-- Attempt to match the rewriter's pattern
`(\w+): require\('\.\/([\w\.\/]+)'\)` at the head of the input, returning
the two capture groups and the remainder after the match. -/
def tryMatch (cs : List Char) : Option (List Char × List Char × List Char) :=
  let k := takeRun isWordChar cs
  if k.1.isEmpty then none
  else
    match stripLit ": require('./".data k.2 with
    | none => none
    | some r2 =>
      let p := takeRun isPathChar r2
      if p.1.isEmpty then none
      else
        match stripLit "')".data p.2 with
        | none => none
        | some rest => some (k.1, p.1, rest)

/-- The replacement template `get $1() { return require('./$2'); }`. -/
def lazyReplacement (key pth : List Char) : List Char :=
  "get ".data ++ key ++ "() \x7b return require('./".data ++ pth ++ "'); \x7d".data

/-- Global left-to-right scan of `String.prototype.replace` with a global
regex: at each index try the pattern; on a match emit the replacement and
continue after the match, otherwise emit the character and move on.  A
successful match always consumes at least one character, so fuel equal to
the input length suffices (fuel running out would return the remainder
unchanged, which never happens from `convertToLazyRequireJson`). -/
def convertCharsFuel : Nat → List Char → List Char
  | 0, l => l
  | _ + 1, [] => []
  | fuel + 1, c :: cs =>
      match tryMatch (c :: cs) with
      | some (key, pth, rest) => lazyReplacement key pth ++ convertCharsFuel fuel rest
      | none => c :: convertCharsFuel fuel cs

/-- Embeds `convertToLazyRequireJson` (src/index.js lines 128–130): rewrite
every occurrence of the pattern `(\w+): require\('\.\/([\w\.\/]+)'\)` to
`get $1() { return require('./$2'); }`. -/
def convertToLazyRequireJson (s : String) : String :=
  ⟨convertCharsFuel s.data.length s.data⟩

/-- JavaScript `filename.slice(-n)` on the character list of a string: the
last `n` characters (the whole string when it is shorter than `n`). -/
def sliceFromEnd (l : List Char) (n : Nat) : List Char := l.drop (l.length - n)

/-- Substring test, as `filename.match(/node_modules/) !== null` would
observe it. -/
def hasInfixChars (needle : List Char) : List Char → Bool
  | [] => needle.isEmpty
  | c :: cs => needle.isPrefixOf (c :: cs) || hasInfixChars needle cs

/-- Embeds the default `shouldBeIndexed` predicate (src/index.js lines
197–203): `_.all` of — the last three characters are `.js`, the last eight
characters are not `index.js`, and `node_modules` occurs nowhere in the
path. -/
def shouldBeIndexed (filename : String) : Bool :=
  (sliceFromEnd filename.data 3 == ".js".data) &&
  !(sliceFromEnd filename.data 8 == "index.js".data) &&
  !(hasInfixChars "node_modules".data filename.data)

/-- Induction principle for the nested inductive `JTree`. -/
theorem jtree_ind (P : JTree → Prop) (hleaf : ∀ s, P (.leaf s))
    (hnode : ∀ es, (∀ kv ∈ es, P kv.2) → P (.node es)) : ∀ t, P t
  | .leaf s => hleaf s
  | .node es => hnode es (fun kv hkv => jtree_ind P hleaf hnode kv.2)
termination_by t => sizeOf t
decreasing_by
  have h1 := List.sizeOf_lt_of_mem hkv
  cases kv
  simp at *
  omega

theorem listLe_trans : ∀ a b c : List Char,
    listLe a b = true → listLe b c = true → listLe a c = true
  | [], _, _, _, _ => rfl
  | _ :: _, [], _, h1, _ => by simp [listLe] at h1
  | _ :: _, _ :: _, [], _, h2 => by simp [listLe] at h2
  | a :: as, b :: bs, c :: cs, h1, h2 => by
      simp only [listLe] at h1 h2 ⊢
      by_cases hab : a.toNat < b.toNat
      · rw [if_pos hab] at h1
        by_cases hbc : b.toNat < c.toNat
        · rw [if_pos (by omega : a.toNat < c.toNat)]
        · rw [if_neg hbc] at h2
          by_cases hcb : c.toNat < b.toNat
          · rw [if_pos hcb] at h2
            exact absurd h2 (by simp)
          · rw [if_pos (by omega : a.toNat < c.toNat)]
      · rw [if_neg hab] at h1
        by_cases hba : b.toNat < a.toNat
        · rw [if_pos hba] at h1
          exact absurd h1 (by simp)
        · rw [if_neg hba] at h1
          by_cases hbc : b.toNat < c.toNat
          · rw [if_pos (by omega : a.toNat < c.toNat)]
          · rw [if_neg hbc] at h2
            by_cases hcb : c.toNat < b.toNat
            · rw [if_pos hcb] at h2
              exact absurd h2 (by simp)
            · rw [if_neg hcb] at h2
              rw [if_neg (by omega : ¬ a.toNat < c.toNat),
                  if_neg (by omega : ¬ c.toNat < a.toNat)]
              exact listLe_trans as bs cs h1 h2

theorem listLe_total : ∀ a b : List Char, listLe a b = true ∨ listLe b a = true
  | [], _ => Or.inl rfl
  | _ :: _, [] => Or.inr rfl
  | a :: as, b :: bs => by
      simp only [listLe]
      rcases Nat.lt_trichotomy a.toNat b.toNat with h | h | h
      · left; rw [if_pos h]
      · have h1 : ¬ a.toNat < b.toNat := by omega
        have h2 : ¬ b.toNat < a.toNat := by omega
        rw [if_neg h1, if_neg h2, if_neg h2, if_neg h1]
        exact listLe_total as bs
      · right; rw [if_pos h]

instance : IsTrans (String × JTree) jtreeKeyLE :=
  ⟨fun a b c => listLe_trans a.1.data b.1.data c.1.data⟩

instance : IsTotal (String × JTree) jtreeKeyLE :=
  ⟨fun a b => listLe_total a.1.data b.1.data⟩

theorem find?_setEntries_self (es : List (String × JTree)) (k : String) (v : JTree) :
    (setEntries es k v).find? (fun kv => kv.1 == k) = some (k, v) := by
  induction es with
  | nil => simp [setEntries]
  | cons kv rest ih =>
      obtain ⟨k', v'⟩ := kv
      by_cases h : k' = k
      · subst h
        simp [setEntries]
      · simp [setEntries, h, ih]

theorem find?_setEntries_other (es : List (String × JTree)) (k k' : String) (v : JTree)
    (h : k' ≠ k) :
    (setEntries es k v).find? (fun kv => kv.1 == k') = es.find? (fun kv => kv.1 == k') := by
  have hkk : ¬ k = k' := fun e => h (Eq.symm e)
  induction es with
  | nil => simp [setEntries, hkk]
  | cons kv rest ih =>
      obtain ⟨k0, v0⟩ := kv
      by_cases h0 : k0 = k
      · subst h0
        simp [setEntries, hkk]
      · by_cases hk : k0 = k'
        · subst hk
          simp [setEntries, h0]
        · simp [setEntries, h0, hk, ih]

theorem jsRead_jsSet_self (es : List (String × JTree)) (k : String) (v : JTree) :
    jsRead (jsSet (.node es) k v) k = some v := by
  simp [jsSet, jsRead, find?_setEntries_self]

theorem jsRead_jsSet_other (es : List (String × JTree)) (k k' : String) (v : JTree)
    (h : k' ≠ k) : jsRead (jsSet (.node es) k v) k' = jsRead (.node es) k' := by
  simp [jsSet, jsRead, find?_setEntries_other es k k' v h]

theorem sortEntries_eq_map : ∀ es : List (String × JTree),
    sortEntries es = es.map (fun kv => (kv.1, sortJson kv.2))
  | [] => rfl
  | kv :: rest => by rw [sortEntries, sortEntries_eq_map rest, List.map_cons]

theorem keys_sortEntries (es : List (String × JTree)) :
    (sortEntries es).map Prod.fst = es.map Prod.fst := by
  rw [sortEntries_eq_map, List.map_map]
  rfl

theorem pairwise_keysAscending : ∀ L : List (String × JTree),
    List.Pairwise jtreeKeyLE L → keysAscending (L.map Prod.fst) = true
  | [], _ => rfl
  | [_], _ => rfl
  | a :: b :: L, h => by
      rw [List.pairwise_cons] at h
      simp only [List.map_cons, keysAscending, Bool.and_eq_true]
      exact ⟨h.1 b (by simp), pairwise_keysAscending (b :: L) h.2⟩

theorem entriesAllSorted_iff : ∀ L : List (String × JTree),
    entriesAllSorted L = true ↔ ∀ kv ∈ L, allKeysSorted kv.2 = true
  | [] => by simp [entriesAllSorted]
  | kv :: rest => by
      simp [entriesAllSorted, entriesAllSorted_iff rest]

theorem leavesOf_chainTree : ∀ (parts : List String) (key v : String),
    leavesOf (chainTree parts key v) = [v]
  | [], key, v => by simp [chainTree, leavesOf, leavesOfEntries]
  | p :: rest, key, v => by
      simp [chainTree, leavesOf, leavesOfEntries, leavesOf_chainTree rest]

theorem insertLoop_empty_chain : ∀ (rest : List String) (p : String) (fname : List Char)
    (floc marker : String),
    insertLoop (.node []) (p :: rest) fname floc marker =
      (chainTree (p :: rest) (camelCase fname) (mkRequire floc), false)
  | [], p, fname, floc, marker => by
      simp [insertLoop, jsRead, jsSet, setEntries, attachFilenameToLeafNode,
        handleConflicts, chainTree]
  | q :: rest, p, fname, floc, marker => by
      simp [insertLoop, jsRead, jsSet, setEntries]
      cases rest with
      | nil =>
          simp [insertLoop, attachFilenameToLeafNode, handleConflicts, jsRead, jsSet,
            setEntries, chainTree]
      | cons r rest' =>
          rw [insertLoop_empty_chain rest' r fname floc marker]
          simp [chainTree]

theorem sortJson_node_sorted (es : List (String × JTree)) :
    List.Sorted jtreeKeyLE (List.insertionSort jtreeKeyLE (sortEntries es)) :=
  List.sorted_insertionSort jtreeKeyLE (sortEntries es)

theorem mem_sortJson_node {kv : String × JTree} {es : List (String × JTree)}
    (h : kv ∈ List.insertionSort jtreeKeyLE (sortEntries es)) :
    ∃ v, (kv.1, v) ∈ es ∧ kv.2 = sortJson v := by
  have h1 : kv ∈ sortEntries es :=
    (List.perm_insertionSort jtreeKeyLE (sortEntries es)).mem_iff.mp h
  rw [sortEntries_eq_map] at h1
  obtain ⟨⟨k0, v0⟩, hm, he⟩ := List.mem_map.mp h1
  subst he
  exact ⟨v0, hm, rfl⟩

theorem allKeysSorted_sortJson : ∀ t : JTree, allKeysSorted (sortJson t) = true := by
  intro t
  induction t using jtree_ind with
  | hleaf s => rfl
  | hnode es ih =>
      simp only [sortJson, allKeysSorted, Bool.and_eq_true]
      constructor
      · exact pairwise_keysAscending _ (sortJson_node_sorted es)
      · rw [entriesAllSorted_iff]
        intro kv hkv
        obtain ⟨v, hv, he⟩ := mem_sortJson_node hkv
        rw [he]
        exact ih (kv.1, v) hv

theorem map_sortEntries_self (es : List (String × JTree))
    (h : ∀ kv ∈ es, sortJson (sortJson kv.2) = sortJson kv.2)
    (L : List (String × JTree))
    (hL : ∀ kv ∈ L, ∃ v, (kv.1, v) ∈ es ∧ kv.2 = sortJson v) :
    sortEntries L = L := by
  rw [sortEntries_eq_map]
  have : ∀ kv ∈ L, (fun kv => (kv.1, sortJson kv.2)) kv = id kv := by
    intro kv hkv
    obtain ⟨v, hv, he⟩ := hL kv hkv
    have h2 := h (kv.1, v) hv
    obtain ⟨k1, v1⟩ := kv
    simp only [id]
    simp only at he
    rw [he] at h2 ⊢
    rw [h2]
  rw [List.map_congr_left this, List.map_id]

theorem sortJson_idem : ∀ t : JTree, sortJson (sortJson t) = sortJson t := by
  intro t
  induction t using jtree_ind with
  | hleaf s => rfl
  | hnode es ih =>
      simp only [sortJson]
      rw [map_sortEntries_self es ih _ (fun kv hkv => mem_sortJson_node hkv)]
      rw [(sortJson_node_sorted es).insertionSort_eq]

theorem takeRun_append_cons (q : Char → Bool) :
    ∀ (xs : List Char) (y : Char) (ys : List Char),
      (∀ c ∈ xs, q c = true) → q y = false →
      takeRun q (xs ++ y :: ys) = (xs, y :: ys)
  | [], y, ys, _, hy => by simp [takeRun, hy]
  | x :: xs, y, ys, hxs, hy => by
      have hx : q x = true := hxs x (by simp)
      have ih := takeRun_append_cons q xs y ys (fun c hc => hxs c (by simp [hc])) hy
      simp [List.cons_append, takeRun, hx, ih]

theorem stripLit_append : ∀ (ls r : List Char), stripLit ls (ls ++ r) = some r
  | [], r => rfl
  | l :: ls, r => by simp [stripLit, stripLit_append ls r]

theorem tryMatch_exact (key pth : List Char) (hk : key ≠ [])
    (hkw : ∀ c ∈ key, isWordChar c = true) (hp : pth ≠ [])
    (hpw : ∀ c ∈ pth, isPathChar c = true) :
    tryMatch (key ++ ": require('./".data ++ pth ++ "')".data) = some (key, pth, []) := by
  have h1 : takeRun isWordChar (key ++ ": require('./".data ++ pth ++ "')".data) =
      (key, ": require('./".data ++ pth ++ "')".data) := by
    have := takeRun_append_cons isWordChar key ':'
      (" require('./".data ++ pth ++ "')".data) hkw (by decide)
    simpa using this
  have h2 : stripLit ": require('./".data (": require('./".data ++ pth ++ "')".data) =
      some (pth ++ "')".data) := by
    have := stripLit_append ": require('./".data (pth ++ "')".data)
    simpa using this
  have h3 : takeRun isPathChar (pth ++ "')".data) = (pth, "')".data) := by
    have := takeRun_append_cons isPathChar pth '\'' [')'] hpw (by decide)
    simpa using this
  have h4 : stripLit "')".data "')".data = some [] := by decide
  rw [tryMatch]
  simp only [h1]
  rw [if_neg (by simpa using hk)]
  simp only [h2, h3]
  rw [if_neg (by simpa using hp)]
  simp only [h4]

theorem listIsPrefixOf_iff : ∀ p l : List Char, p.isPrefixOf l = true ↔ ∃ r, p ++ r = l
  | [], l => by simp [List.isPrefixOf]
  | p :: ps, [] => by simp [List.isPrefixOf]
  | p :: ps, c :: cs => by
      simp only [List.isPrefixOf, Bool.and_eq_true, beq_iff_eq, listIsPrefixOf_iff ps cs]
      constructor
      · rintro ⟨he, r, hr⟩
        exact ⟨r, by rw [he, List.cons_append, hr]⟩
      · rintro ⟨r, hr⟩
        rw [List.cons_append] at hr
        injection hr with h1 h2
        exact ⟨h1, r, h2⟩

theorem hasInfixChars_iff (needle : List Char) (hne : needle ≠ []) :
    ∀ hay : List Char, hasInfixChars needle hay = true ↔ ∃ l r, l ++ needle ++ r = hay
  | [] => by
      simp [hasInfixChars, hne]
  | c :: cs => by
      simp only [hasInfixChars, Bool.or_eq_true, listIsPrefixOf_iff,
        hasInfixChars_iff needle hne cs]
      constructor
      · rintro (⟨r, hr⟩ | ⟨l, r, hr⟩)
        · exact ⟨[], r, by simpa using hr⟩
        · exact ⟨c :: l, r, by rw [← hr]; simp⟩
      · rintro ⟨l, r, hr⟩
        cases l with
        | nil => exact Or.inl ⟨r, by simpa using hr⟩
        | cons x xs =>
            right
            rw [List.cons_append, List.cons_append] at hr
            injection hr with h1 h2
            exact ⟨xs, r, by rw [List.append_assoc] at h2 ⊢; exact h2⟩

theorem sliceFromEnd_eq_iff (l p : List Char) (n : Nat) (hn : p.length = n) :
    (sliceFromEnd l n == p) = true ↔ p.IsSuffix l := by
  subst hn
  rw [beq_iff_eq]
  constructor
  · intro h
    rw [← h]
    exact List.drop_suffix _ _
  · rintro ⟨t, ht⟩
    rw [← ht, sliceFromEnd]
    simp

theorem convertCharsFuel_nil : ∀ n : Nat, convertCharsFuel n [] = []
  | 0 => rfl
  | _ + 1 => rfl

theorem convertChars_single (key pth : List Char) (hk : key ≠ [])
    (hkw : ∀ c ∈ key, isWordChar c = true) (hp : pth ≠ [])
    (hpw : ∀ c ∈ pth, isPathChar c = true) :
    convertCharsFuel (key ++ ": require('./".data ++ pth ++ "')".data).length
      (key ++ ": require('./".data ++ pth ++ "')".data) = lazyReplacement key pth := by
  have hm := tryMatch_exact key pth hk hkw hp hpw
  obtain ⟨a, ktail, rfl⟩ : ∃ a t, key = a :: t := by
    cases key with
    | nil => exact absurd rfl hk
    | cons a t => exact ⟨a, t, rfl⟩
  simp only [List.cons_append, List.append_assoc, List.nil_append, List.length_cons] at hm ⊢
  rw [convertCharsFuel]
  simp [hm, convertCharsFuel_nil]

/-- C1 (counterexample): inserting `overview.js` then `overview/summary.js`
and the reverse order produce different serialized trees, so insertion is
not order-independent. -/
theorem insert_order_counterexample :
    sortJson (insertAll '/' "Js" ["overview.js", "overview/summary.js"]).1 ≠
      sortJson (insertAll '/' "Js" ["overview/summary.js", "overview.js"]).1 := by
  decide

/-- C1 (amended): insertion order matters.  Inserting the file before the
directory resolves the conflict and keeps both entries; in the reverse order
the root-level attachment overwrites the `overview` Namespace Node with the
Leaf, losing the namespace. -/
theorem insert_order_dependence :
    sortJson (insertAll '/' "Js" ["overview.js", "overview/summary.js"]).1 =
      .node [("overview", .node [("summary", .leaf "require('./overview/summary.js')")]),
             ("overviewJs", .leaf "require('./overview.js')")] ∧
    sortJson (insertAll '/' "Js" ["overview/summary.js", "overview.js"]).1 =
      .node [("overview", .leaf "require('./overview.js')")] := by
  decide

/-- C2 (counterexample): when the Leaf occupies an intermediate directory
segment (`a` while inserting `a/b/c.js`), the insertion throws a `TypeError`
and leaves the Leaf in place as a non-node value; no relocation to `aJs`
happens. -/
theorem intermediate_conflict_counterexample :
    insertAll '/' "Js" ["a.js", "a/b/c.js"] =
      (.node [("a", .leaf "require('./a.js')")], true) ∧
    jsRead (insertAll '/' "Js" ["a.js", "a/b/c.js"]).1 "aJs" = none := by
  decide

/-- C2 (amended): when the Leaf occupies the key of the final directory
segment (the immediate parent of the new leaf), the insertion relocates it
to `key ++ marker` in the same node and resets the key to a Namespace Node
holding the new leaf; this holds only for the final segment, not for
intermediate ones. -/
theorem conflict_relocation_at_final_segment
    (es : List (String × JTree)) (d : String) (fname : List Char)
    (floc marker s : String)
    (hread : jsRead (.node es) d = some (.leaf s))
    (hreq : "require(".data.isPrefixOf s.data = true)
    (hmk : d ++ marker ≠ d) :
    (insertLoop (.node es) [d] fname floc marker).2 = false ∧
    jsRead (insertLoop (.node es) [d] fname floc marker).1 (d ++ marker) =
      some (.leaf s) ∧
    jsRead (insertLoop (.node es) [d] fname floc marker).1 d =
      some (.node [(camelCase fname, .leaf (mkRequire floc))]) := by
  have h1 : insertLoop (.node es) [d] fname floc marker =
      attachFilenameToLeafNode (.node es) fname floc d marker := by
    simp [insertLoop, hread]
  have h2 : handleConflicts (.node es) d marker =
      .node (setEntries (setEntries es (d ++ marker) (.leaf s)) d (.node [])) := by
    simp [handleConflicts, hread, hreq, jsSet]
  have h4 := jsRead_jsSet_self (setEntries es (d ++ marker) (.leaf s)) d (.node [])
  simp only [jsSet] at h4
  have h3 : attachFilenameToLeafNode (.node es) fname floc d marker =
      (.node (setEntries (setEntries (setEntries es (d ++ marker) (.leaf s)) d (.node []))
          d (.node [(camelCase fname, .leaf (mkRequire floc))])), false) := by
    simp only [attachFilenameToLeafNode]
    rw [h2, h4]
    rfl
  rw [h1, h3]
  refine ⟨rfl, ?_, ?_⟩
  · have ha := jsRead_jsSet_other
      (setEntries (setEntries es (d ++ marker) (.leaf s)) d (.node [])) d (d ++ marker)
      (.node [(camelCase fname, .leaf (mkRequire floc))]) hmk
    simp only [jsSet] at ha
    rw [ha]
    have hb := jsRead_jsSet_other (setEntries es (d ++ marker) (.leaf s)) d (d ++ marker)
      (.node []) hmk
    simp only [jsSet] at hb
    rw [hb]
    have hc := jsRead_jsSet_self es (d ++ marker) (.leaf s)
    simp only [jsSet] at hc
    rw [hc]
  · have hd := jsRead_jsSet_self
      (setEntries (setEntries es (d ++ marker) (.leaf s)) d (.node [])) d
      (.node [(camelCase fname, .leaf (mkRequire floc))])
    simp only [jsSet] at hd
    rw [hd]

/-- C2 (witness): the relocation theorem applied to the `overview` scenario. -/
theorem conflict_relocation_at_final_segment_witness :
    (insertLoop (.node [("overview", .leaf "require('./overview.js')")]) ["overview"]
        "summary".data "overview/summary.js" "Js").2 = false ∧
    jsRead (insertLoop (.node [("overview", .leaf "require('./overview.js')")]) ["overview"]
        "summary".data "overview/summary.js" "Js").1 ("overview" ++ "Js") =
      some (.leaf "require('./overview.js')") ∧
    jsRead (insertLoop (.node [("overview", .leaf "require('./overview.js')")]) ["overview"]
        "summary".data "overview/summary.js" "Js").1 "overview" =
      some (.node [(camelCase "summary".data, .leaf (mkRequire "overview/summary.js"))]) :=
  conflict_relocation_at_final_segment [("overview", .leaf "require('./overview.js')")]
    "overview" "summary".data "overview/summary.js" "Js" "require('./overview.js')"
    (by decide) (by decide) (by decide)

/-- C3 (counterexample): a Leaf path containing `-` (which `shouldBeIndexed`
accepts and a Leaf can therefore carry) does not match the rewriter's
`[\w\.\/]+` path group, so the pair is left eager, unchanged. -/
theorem lazy_rewrite_dash_counterexample :
    convertToLazyRequireJson "myWidget: require('./my-widget.js')" =
      "myWidget: require('./my-widget.js')" ∧
    convertToLazyRequireJson "myWidget: require('./my-widget.js')" ≠
      "get myWidget() \x7b return require('./my-widget.js'); \x7d" ∧
    shouldBeIndexed "my-widget.js" = true := by
  decide

/-- C3 (amended): the rewriter converts exactly the occurrences whose key
matches `\w+` and whose path consists only of word characters, dots and
slashes, preserving the path text byte-for-byte; paths with any other
character (such as `-`) are not rewritten. -/
theorem lazy_rewrite_exact_shape (key pth : List Char) (hk : key ≠ [])
    (hkw : ∀ c ∈ key, isWordChar c = true) (hp : pth ≠ [])
    (hpw : ∀ c ∈ pth, isPathChar c = true) :
    convertToLazyRequireJson ⟨key ++ ": require('./".data ++ pth ++ "')".data⟩ =
      ⟨"get ".data ++ key ++ "() \x7b return require('./".data ++ pth ++ "'); \x7d".data⟩ :=
  congrArg (fun l => (⟨l⟩ : String)) (convertChars_single key pth hk hkw hp hpw)

/-- C3 (witness): the rewrite theorem applied to the `accountPage` line. -/
theorem lazy_rewrite_exact_shape_witness :
    convertToLazyRequireJson "accountPage: require('./search/account.page.js')" =
      "get accountPage() \x7b return require('./search/account.page.js'); \x7d" :=
  lazy_rewrite_exact_shape "accountPage".data "search/account.page.js".data
    (by decide) (by decide) (by decide) (by decide)

/-- C4: inserting `overview.js` then `overview/summary.js` into an empty
tree puts the first Leaf under `overviewJs` (default Conflict Marker `Js`)
and a Namespace Node under `overview` holding `summary`. -/
theorem conflict_scenario_overview :
    (insertAll '/' "Js" ["overview.js", "overview/summary.js"]).2 = false ∧
    jsRead (insertAll '/' "Js" ["overview.js", "overview/summary.js"]).1 "overviewJs" =
      some (.leaf "require('./overview.js')") ∧
    jsRead (insertAll '/' "Js" ["overview.js", "overview/summary.js"]).1 "overview" =
      some (.node [("summary", .leaf "require('./overview/summary.js')")]) := by
  decide

/-- C5: the deterministic serializer is pure and total — a Leaf passes
through unchanged; a Namespace Node maps to a Namespace Node with the same
keys (as a permutation), listed in ascending lexicographic code-point order,
each child recursively sorted; consequently every Namespace Node reachable
in the result, including the root, has ascending keys. -/
theorem sortJson_serializer_spec :
    (∀ s, sortJson (.leaf s) = .leaf s) ∧
    (∀ es : List (String × JTree), ∃ es',
        sortJson (.node es) = .node es' ∧
        List.Perm (es'.map Prod.fst) (es.map Prod.fst) ∧
        keysAscending (es'.map Prod.fst) = true ∧
        (∀ kv ∈ es', ∃ v, (kv.1, v) ∈ es ∧ kv.2 = sortJson v)) ∧
    (∀ t, allKeysSorted (sortJson t) = true) := by
  refine ⟨fun s => rfl, fun es => ?_, allKeysSorted_sortJson⟩
  refine ⟨List.insertionSort jtreeKeyLE (sortEntries es), rfl, ?_, ?_, ?_⟩
  · have h1 := (List.perm_insertionSort jtreeKeyLE (sortEntries es)).map Prod.fst
    rwa [keys_sortEntries] at h1
  · exact pairwise_keysAscending _ (sortJson_node_sorted es)
  · exact fun kv hkv => mem_sortJson_node hkv

/-- C5 (witness): the serializer specification applied to concrete trees. -/
theorem sortJson_serializer_spec_witness :
    sortJson (.leaf "require('./x.js')") = .leaf "require('./x.js')" ∧
    allKeysSorted (sortJson (.node [("b", .leaf "u"), ("a", .leaf "v")])) = true :=
  ⟨sortJson_serializer_spec.1 "require('./x.js')",
   sortJson_serializer_spec.2.2 (.node [("b", .leaf "u"), ("a", .leaf "v")])⟩

/-- C6 (counterexample): `myindex.js` ends in `.js`, is not the file
`index.js`, and contains no `node_modules`, yet the default predicate
rejects it — so the claimed characterization fails. -/
theorem shouldBeIndexed_myindex_counterexample :
    shouldBeIndexed "myindex.js" = false ∧
    sliceFromEnd "myindex.js".data 3 = ".js".data ∧
    ("myindex.js" : String) ≠ "index.js" ∧
    hasInfixChars "node_modules".data "myindex.js".data = false := by
  decide

/-- C6 (amended): the default predicate accepts a path exactly when it ends
in `.js`, does not end in `index.js`, and contains `node_modules` nowhere as
a substring. -/
theorem shouldBeIndexed_characterization (f : String) :
    shouldBeIndexed f = true ↔
      (".js".data.IsSuffix f.data ∧ ¬ "index.js".data.IsSuffix f.data ∧
        ¬ ∃ l r, l ++ "node_modules".data ++ r = f.data) := by
  simp only [shouldBeIndexed, Bool.and_eq_true, Bool.not_eq_true']
  constructor
  · rintro ⟨⟨h1, h2⟩, h3⟩
    refine ⟨(sliceFromEnd_eq_iff f.data ".js".data 3 rfl).mp h1, ?_, ?_⟩
    · intro hs
      have hx := (sliceFromEnd_eq_iff f.data "index.js".data 8 rfl).mpr hs
      rw [hx] at h2
      cases h2
    · rintro ⟨l, r, hr⟩
      have hx := (hasInfixChars_iff "node_modules".data (by decide) f.data).mpr ⟨l, r, hr⟩
      rw [hx] at h3
      cases h3
  · rintro ⟨h1, h2, h3⟩
    refine ⟨⟨(sliceFromEnd_eq_iff f.data ".js".data 3 rfl).mpr h1, ?_⟩, ?_⟩
    · cases hb : (sliceFromEnd f.data 8 == "index.js".data) with
      | false => rfl
      | true => exact absurd ((sliceFromEnd_eq_iff f.data "index.js".data 8 rfl).mp hb) h2
    · cases hb : hasInfixChars "node_modules".data f.data with
      | false => rfl
      | true =>
          obtain ⟨l, r, hr⟩ :=
            (hasInfixChars_iff "node_modules".data (by decide) f.data).mp hb
          exact absurd ⟨l, r, hr⟩ h3

/-- C6 (witness): the characterization applied to a concrete accepted path. -/
theorem shouldBeIndexed_characterization_witness :
    ".js".data.IsSuffix "pages/app.js".data ∧
      ¬ "index.js".data.IsSuffix "pages/app.js".data ∧
      ¬ ∃ l r, l ++ "node_modules".data ++ r = "pages/app.js".data :=
  (shouldBeIndexed_characterization "pages/app.js").mp (by decide)

/-- C7 (counterexample): with the Windows host separator, the path embedded
in the Leaf keeps the backslash verbatim — it is not converted to forward
slashes, contradicting the claim that the Leaf path always uses `/`. -/
theorem leaf_backslash_counterexample :
    filenameToJson '\\' "Js" (.node []) "a\\b.js" =
      (.node [("a", .node [("b", .leaf "require('./a\\b.js')")])], false) ∧
    "a\\b.js".data.contains '/' = false ∧
    "a\\b.js".data.contains '\\' = true := by
  decide

/-- C7 (amended): the Leaf built for a path inserted into an empty tree is
exactly `require('./ ++ filename ++ ')` — prefixed with `./` but embedding
the input path text verbatim, so its separators are the host's separators
(forward slashes exactly when the input uses them). -/
theorem leaf_embeds_raw_path (sep : Char) (marker filename : String) :
    leavesOf (filenameToJson sep marker (.node []) filename).1 =
      ["require('./" ++ filename ++ "')"] := by
  simp only [filenameToJson]
  cases hLoc : (splitOnChar sep filename.data).dropLast with
  | nil =>
      simp [attachFilenameToLeafNodeRoot, jsSet, setEntries, leavesOf, leavesOfEntries,
        mkRequire]
  | cons p rest =>
      simp only [List.isEmpty_cons, if_false, List.map_cons, Bool.false_eq_true]
      rw [insertLoop_empty_chain]
      simp [leavesOf_chainTree, mkRequire]

/-- C8: the deterministic serializer is idempotent — sorting an
already-sorted tree yields an identical tree. -/
theorem sortJson_idempotent : ∀ t : JTree, sortJson (sortJson t) = sortJson t :=
  sortJson_idem

/-- C9: the identifier deriver applies only to the final filename segment;
directory segments become keys verbatim.  Concretely, `my-widget/x.js`
creates the namespace key `my-widget` (not `myWidget`), the sibling file
`my-widget.js` gets leaf key `myWidget`, and no conflict-marker key is
created; in general an insertion into an empty tree keys every directory
level by the raw segment text and only the leaf by the camel-cased name. -/
theorem directory_segments_verbatim :
    ((insertAll '/' "Js" ["my-widget.js", "my-widget/x.js"]).1 =
        .node [("myWidget", .leaf "require('./my-widget.js')"),
               ("my-widget", .node [("x", .leaf "require('./my-widget/x.js')")])] ∧
      (insertAll '/' "Js" ["my-widget.js", "my-widget/x.js"]).2 = false ∧
      jsRead (insertAll '/' "Js" ["my-widget.js", "my-widget/x.js"]).1 "my-widgetJs" =
        none ∧
      jsRead (insertAll '/' "Js" ["my-widget.js", "my-widget/x.js"]).1 "myWidgetJs" =
        none) ∧
    (∀ (p : String) (rest : List String) (fname : List Char) (floc marker : String),
        insertLoop (.node []) (p :: rest) fname floc marker =
          (chainTree (p :: rest) (camelCase fname) (mkRequire floc), false)) :=
  ⟨by decide, fun p rest fname floc marker => insertLoop_empty_chain rest p fname floc marker⟩

/-- C10: the output-file exclusion tests only the last eight characters, so
every path ending in `index.js` is rejected, not only files named
`index.js`. -/
theorem index_suffix_rejected :
    (∀ s : String, shouldBeIndexed (s ++ "index.js") = false) ∧
    shouldBeIndexed "myindex.js" = false ∧
    shouldBeIndexed "searchindex.js" = false := by
  refine ⟨?_, by decide, by decide⟩
  intro s
  simp only [shouldBeIndexed, String.data_append]
  have h8 : sliceFromEnd (s.data ++ "index.js".data) 8 = "index.js".data := by
    rw [sliceFromEnd, List.length_append]
    have hL : ("index.js".data).length = 8 := rfl
    rw [hL, Nat.add_sub_cancel]
    exact List.drop_left s.data "index.js".data
  rw [h8]
  simp
